import Mathlib

/-!
Shallow embedding of the rust-file-sync server core: the `MatchablePath`
value type, the in-memory file history, the reconciliation loop of the
sync endpoint, and the upload / delete / download / config handlers.
Each definition is translated from the corresponding Rust source file
(noted on the definition); machine integers are modelled as `Nat` / `Int`
(no arithmetic in the translated code overflows), filesystem and clock
nondeterminism is passed in explicitly, and a Rust panic is modelled as
an `Option`-`none` or a dedicated outcome constructor.
-/

namespace RustFileSync

/-! ## MatchablePath (shared/src/matchable_path.rs) -/

/-! Structural models of the string primitives the source uses
(`str::split('/')`, `str::trim`, `str::to_lowercase`, `starts_with('.')`,
`str::is_empty`), written over the character list so that concrete
computations reduce inside the kernel.  `strTrim` and `isWhiteSp` model
Rust whitespace trimming restricted to the ASCII whitespace characters. -/

def splitOnChar (c : Char) : List Char → List (List Char)
  | [] => [[]]
  | h :: t =>
    if h = c then [] :: splitOnChar c t
    else
      match splitOnChar c t with
      | [] => [[h]]
      | g :: gs => (h :: g) :: gs

/-- Rust `str::split('/')` (an empty string yields one empty piece, empty
pieces between adjacent separators are kept). -/
def splitSlash (s : String) : List String :=
  (splitOnChar '/' s.data).map (fun l => ⟨l⟩)

def isWhiteSp (c : Char) : Bool :=
  c == ' ' || c == '\t' || c == '\n' || c == '\r'

def trimChars (l : List Char) : List Char :=
  ((l.dropWhile isWhiteSp).reverse.dropWhile isWhiteSp).reverse

/-- Rust `str::trim`. -/
def strTrim (s : String) : String := ⟨trimChars s.data⟩

def strIsEmpty (s : String) : Bool := s.data.isEmpty

def charLower (c : Char) : Char :=
  if 'A' ≤ c && c ≤ 'Z' then Char.ofNat (c.toNat + 32) else c

/-- Rust `str::to_lowercase` (ASCII range). -/
def strLower (s : String) : String := ⟨s.data.map charLower⟩

/-- Rust `str::starts_with(c)`. -/
def startsWithChar (s : String) (c : Char) : Bool :=
  match s.data with
  | [] => false
  | h :: _ => h == c

/-- Rust `char::is_ascii_punctuation`: the four ASCII punctuation ranges. -/
def isAsciiPunct (c : Char) : Bool :=
  (0x21 ≤ c.toNat && c.toNat ≤ 0x2F) ||
  (0x3A ≤ c.toNat && c.toNat ≤ 0x40) ||
  (0x5B ≤ c.toNat && c.toNat ≤ 0x60) ||
  (0x7B ≤ c.toNat && c.toNat ≤ 0x7E)

/-- First character of a string is ASCII punctuation (`false` on empty). -/
def firstCharPunct (s : String) : Bool :=
  match s.toList with
  | [] => false
  | c :: _ => isAsciiPunct c

/-- The `MatchablePath(Vec<String>)` tuple struct. Validity is not carried by
the type, exactly as in the source, where `From<Vec<String>>` can produce an
empty path. -/
structure MatchablePath where
  segs : List String
deriving DecidableEq

/-- The `Normal` components of a Unix OS path string: split on the separator
and drop root, current-dir and parent-dir components. Models
`std::path::Path::components()` restricted to `Component::Normal`, which is
what `impl From<&Path> for MatchablePath` keeps. -/
def normalComponents (s : String) : List String :=
  (splitSlash s).filter (fun seg => seg != "" && seg != "." && seg != "..")

/-- `MatchablePath::new`: panics (modelled as `none`) when the vector is
empty, otherwise wraps it. -/
def MatchablePath.new (l : List String) : Option MatchablePath :=
  if l.isEmpty then none else some ⟨l⟩

/-- `impl From<&Path> for MatchablePath`: keep the `Normal` components of the
OS path (no trimming, no punctuation filtering) and pass them to
`MatchablePath::new`, which panics on an empty result. -/
def MatchablePath.fromOsPath (s : String) : Option MatchablePath :=
  MatchablePath.new (normalComponents s)

/-- `impl From<&str> for MatchablePath`: delegates to the `&Path` route. -/
def MatchablePath.fromString (s : String) : Option MatchablePath :=
  MatchablePath.fromOsPath s

/-- `impl From<Vec<String>> for MatchablePath`: trim each item, then keep the
items that are non-empty and whose first character is not ASCII punctuation.
Constructs the struct directly, so an empty result is possible. -/
def MatchablePath.fromVecString (l : List String) : MatchablePath :=
  ⟨(l.map (fun item => strTrim item)).filter
      (fun item => !(strIsEmpty item) && !(firstCharPunct item))⟩

/-- Outcome of serde deserialization of a `MatchablePath`. -/
inductive PathDeserializeResult where
  | ok (p : MatchablePath)
  | invalidPathError
  | panicked
deriving DecidableEq

/-- `impl Deserialize for MatchablePath`: build from the raw string via the
`&Path` route (which can panic inside `MatchablePath::new`), then return an
`InvalidPath`-style custom error when the segment list is empty. -/
def MatchablePath.deserialize (raw : String) : PathDeserializeResult :=
  match MatchablePath.fromOsPath raw with
  | none => .panicked
  | some m => if m.segs.isEmpty then .invalidPathError else .ok m

/-- `MatchablePath::resolve`: join the segments under a root, modelled on
segment lists. -/
def MatchablePath.resolve (p : MatchablePath) (root : List String) : List String :=
  root ++ p.segs

/-! ## File events (shared/src/file_event.rs, current revision of the struct
reconstructed from its uses in server/src/file_history.rs and
server/src/handler/sync.rs together with spec section 3) -/

inductive FileEventType where
  | ChangeEvent
  | DeleteEvent
deriving DecidableEq

def FileEventType.is_delete : FileEventType → Bool
  | .ChangeEvent => false
  | .DeleteEvent => true

def FileEventType.is_change (t : FileEventType) : Bool :=
  !t.is_delete

/-- The stored file event. The UUID is modelled as a `Nat` tag. -/
structure FileEvent where
  id : Nat
  utc_millis : Nat
  relative_path : MatchablePath
  size_in_bytes : Nat
  event_type : FileEventType
  client_host : Option String
  watch_group_id : Int
deriving DecidableEq

/-- What a client snapshot carries per file
(shared/src/get_files_of_directory.rs). -/
structure FileDescription where
  file_name : String
  relative_path : MatchablePath
  size_in_bytes : Nat
  file_type : String
  last_updated_utc_millis : Nat
deriving DecidableEq

/-- shared/src/sync_instruction.rs -/
inductive SyncInstruction where
  | Upload (p : MatchablePath)
  | Download (p : MatchablePath)
  | Delete (p : MatchablePath)
deriving DecidableEq

/-! ## History (server/src/file_history.rs)

The nested `HashMap<i64, HashMap<MatchablePath, Vec<FileEvent>>>` is
flattened into an association list keyed by the pair
`(watch_group_id, relative_path)`; `entry(..).or_default().push(..)` becomes
update-in-place when the key is present and appending a fresh entry
otherwise, and map iteration order is the association-list order (the
HashMap order is unspecified). -/

abbrev HistoryKey := Int × MatchablePath

abbrev HistoryStore := List (HistoryKey × List FileEvent)

def FileEvent.key (e : FileEvent) : HistoryKey :=
  (e.watch_group_id, e.relative_path)

/-- Append `e` to the vector stored at key `k`, leaving other entries alone. -/
def bumpEntry (k : HistoryKey) (e : FileEvent) (kv : HistoryKey × List FileEvent) :
    HistoryKey × List FileEvent :=
  if kv.1 = k then (kv.1, kv.2 ++ [e]) else kv

/-- `InMemoryFileHistory::add`: `entry(wg).or_default().entry(path).or_default().push(event)`. -/
def historyAdd (s : HistoryStore) (e : FileEvent) : HistoryStore :=
  if s.any (fun kv => kv.1 == e.key) then s.map (bumpEntry e.key e)
  else s ++ [(e.key, [e])]

def lookupEvents (s : HistoryStore) (k : HistoryKey) : Option (List FileEvent) :=
  (s.find? (fun kv => kv.1 == k)).map (fun kv => kv.2)

/-- `InMemoryFileHistory::get_events`. -/
def getEvents (s : HistoryStore) (wg : Int) (p : MatchablePath) : Option (List FileEvent) :=
  lookupEvents s (wg, p)

def getEventsD (s : HistoryStore) (wg : Int) (p : MatchablePath) : List FileEvent :=
  (getEvents s wg p).getD []

/-- `InMemoryFileHistory::get_latest_event`: last element of the vector. -/
def getLatestEvent (s : HistoryStore) (wg : Int) (p : MatchablePath) : Option FileEvent :=
  (getEvents s wg p).bind (fun v => v.getLast?)

/-- `InMemoryFileHistory::get_latest_events`: last element of every path
vector of the watch group, in map iteration order. -/
def getLatestEvents (s : HistoryStore) (wg : Int) : List FileEvent :=
  s.filterMap (fun kv => if kv.1.1 = wg then kv.2.getLast? else none)

/-- The `utc_millis` of the latest event at a key, defaulting to 0
(`unwrap_or(UtcMillis::from(0))` in `process_upload`). -/
def latestMillisD (s : HistoryStore) (wg : Int) (p : MatchablePath) : Nat :=
  ((getLatestEvent s wg p).map (fun e => e.utc_millis)).getD 0

def millisLe (a b : FileEvent) : Prop := a.utc_millis ≤ b.utc_millis

def millisLt (a b : FileEvent) : Prop := a.utc_millis < b.utc_millis

instance : DecidableRel millisLe :=
  fun a b => inferInstanceAs (Decidable (a.utc_millis ≤ b.utc_millis))

instance : DecidableRel millisLt :=
  fun a b => inferInstanceAs (Decidable (a.utc_millis < b.utc_millis))

instance : IsTotal FileEvent millisLe :=
  ⟨fun a b => Nat.le_total a.utc_millis b.utc_millis⟩

instance : IsTrans FileEvent millisLe :=
  ⟨fun _ _ _ h1 h2 => Nat.le_trans h1 h2⟩

instance : IsTrans FileEvent millisLt :=
  ⟨fun _ _ _ h1 h2 => Nat.lt_trans h1 h2⟩

/-- Rust `is_sorted_by(|a, b| a.utc_millis < b.utc_millis)`: every adjacent
pair strictly increases. -/
def isStrictlySortedByMillis : List FileEvent → Bool
  | [] => true
  | [_] => true
  | a :: b :: t =>
    decide (a.utc_millis < b.utc_millis) && isStrictlySortedByMillis (b :: t)

/-- `impl From<Vec<FileEvent>> for InMemoryFileHistory`: if the input is not
strictly chronological (`is_sorted_by(|a, b| a.utc_millis < b.utc_millis)`),
stably sort it by `utc_millis`; then group by `(watch_group_id, relative_path)`
with the same `entry / or_default / push` fold that `add` uses. -/
def historyFromVec (l : List FileEvent) : HistoryStore :=
  let v := if isStrictlySortedByMillis l then l else List.insertionSort millisLe l
  v.foldl historyAdd []

/-! ### The sortedness / grouping invariant of the history (`sanity_check`) -/

/-- What `sanity_check` demands of one inner vector: chronologically sorted
(`is_sorted_by_key(|e| e.utc_millis)`) and grouped by path (every element's
`relative_path` equals the key). -/
def entryOk (kv : HistoryKey × List FileEvent) : Prop :=
  List.Chain' millisLe kv.2 ∧ ∀ e ∈ kv.2, e.relative_path = kv.1.2

instance (kv : HistoryKey × List FileEvent) : Decidable (entryOk kv) := by
  unfold entryOk; infer_instance

def historyInv (s : HistoryStore) : Prop := ∀ kv ∈ s, entryOk kv

instance (s : HistoryStore) : Decidable (historyInv s) := by
  unfold historyInv; infer_instance

/-- Internal well-formedness of the flattened map: no duplicate keys.  Any
store built through `historyAdd` / `historyFromVec` has it (it corresponds to
HashMap keys being unique). -/
def keysNodup (s : HistoryStore) : Prop := (s.map (fun kv => kv.1)).Nodup

def sortIfNeeded (l : List FileEvent) : List FileEvent :=
  if isStrictlySortedByMillis l then l else List.insertionSort millisLe l

/-- The history states reachable through the code: built by the
`From<Vec<FileEvent>>` constructor, then extended by `add` calls whose event
is at least as new as the stored latest for its `(watch_group, path)` key --
the admission checks of the upload and delete pipelines guarantee exactly
this for all producers. -/
inductive historyReachable : HistoryStore → Prop where
  | ctor (l : List FileEvent) : historyReachable (historyFromVec l)
  | step (s : HistoryStore) (e : FileEvent) : historyReachable s →
      latestMillisD s e.watch_group_id e.relative_path ≤ e.utc_millis →
      historyReachable (historyAdd s e)

/-! ## Reconciler (server/src/handler/sync.rs, sync_handler) -/

/-- One iteration of the `for event in target` loop of `sync_handler`: each
server event contributes at most one instruction. -/
def instructionFor (client : List FileDescription) (event : FileEvent) :
    Option SyncInstruction :=
  match client.find? (fun c => c.relative_path == event.relative_path) with
  | none =>
    if event.event_type ≠ FileEventType.DeleteEvent then
      some (.Download event.relative_path)
    else none
  | some c =>
    if c.size_in_bytes == event.size_in_bytes && event.event_type.is_change then
      none
    else if c.last_updated_utc_millis < event.utc_millis then
      match event.event_type with
      | .ChangeEvent => some (.Download event.relative_path)
      | .DeleteEvent => some (.Delete event.relative_path)
    else
      some (.Upload event.relative_path)

/-- The body of `sync_handler` as a pure function of the latest-per-path
event list and the client snapshot: the instructions pushed by the first
loop, followed by an `Upload` for every client descriptor whose path is in
no server event. -/
def sync_handler_core (target : List FileEvent) (client : List FileDescription) :
    List SyncInstruction :=
  target.filterMap (instructionFor client) ++
    client.filterMap (fun desc =>
      if target.any (fun e => e.relative_path == desc.relative_path) then none
      else some (.Upload desc.relative_path))

/-- `sync_handler`: feed `get_latest_events` of the watch group into the loop. -/
def sync_handler (s : HistoryStore) (wg : Int) (client : List FileDescription) :
    List SyncInstruction :=
  sync_handler_core (getLatestEvents s wg) client

/-- The reconciliation algorithm as the specification words it (spec section
4.6 / claim C1), written independently for comparison with
`sync_handler_core`: per server event, Download when the client misses a
Change, nothing when it misses a Delete; nothing on size-equal Change;
Download / Delete when the client copy is strictly older; Upload otherwise;
then Upload for every client-only path. -/
def reconcileSpecEvent (client : List FileDescription) (e : FileEvent) :
    List SyncInstruction :=
  match client.find? (fun c => c.relative_path == e.relative_path) with
  | none =>
    match e.event_type with
    | .ChangeEvent => [.Download e.relative_path]
    | .DeleteEvent => []
  | some c =>
    if e.event_type = .ChangeEvent ∧ c.size_in_bytes = e.size_in_bytes then []
    else if c.last_updated_utc_millis < e.utc_millis then
      match e.event_type with
      | .ChangeEvent => [.Download e.relative_path]
      | .DeleteEvent => [.Delete e.relative_path]
    else [.Upload e.relative_path]

def reconcileSpecClientOnly (target : List FileEvent) (c : FileDescription) :
    List SyncInstruction :=
  if target.any (fun e => e.relative_path == c.relative_path) then []
  else [.Upload c.relative_path]

def reconcileSpec (target : List FileEvent) (client : List FileDescription) :
    List SyncInstruction :=
  target.flatMap (reconcileSpecEvent client) ++
    client.flatMap (reconcileSpecClientOnly target)

/-! ## Upload pipeline (server/src/handler/sync.rs, process_upload /
upload_handler; server/src/client_file_event.rs) -/

/-- The validated `ClientFileEvent` produced by `TryFrom<ClientFileEventDto>`.
The temp file path is `None` exactly for delete-type uploads. -/
structure ClientFileEvent where
  utc_millis : Nat
  relative_path : MatchablePath
  event_type : FileEventType
  temp_file_path : Option String
  content_size : Nat
deriving DecidableEq

/-- The durable `file_event` rows, each with the client id it was inserted
under. -/
abbrev DbLog := List (FileEvent × String)

inductive UploadResult where
  | ok
  | badRequest (msg : String)
  | internalServerError
  | panicked
deriving DecidableEq

structure UploadOutcome where
  result : UploadResult
  history : HistoryStore
  db : DbLog
  tempFileGone : Bool
deriving DecidableEq

/-- `FileEvent::from(ClientFileEvent)` (type Change or Delete as uploaded,
size = counted bytes) followed by the `fe.client_host = client_host`
assignment in `process_upload`; the fresh UUID is passed in as `freshId`. -/
def publishedEvent (freshId : Nat) (wg : Int) (event : ClientFileEvent)
    (client_host : Option String) : FileEvent :=
  { id := freshId
    utc_millis := event.utc_millis
    relative_path := event.relative_path
    size_in_bytes := event.content_size
    event_type := event.event_type
    client_host := client_host
    watch_group_id := wg }

/-- `process_upload` after DTO validation, composed with the temp-file
cleanup that `upload_handler` performs on an error result.  Filesystem
nondeterminism (`create_dir_all`, `fs::rename`) comes in as booleans; a
failed DB insert is only logged by the code, so the insert itself is
modelled as succeeding, and it is skipped when the `X-Client-Id` header is
absent.  The `unwrap()` of `temp_file_path` panics when the field is `None`,
modelled as the `panicked` result.  In every terminating branch the temp
file is gone: removed on rejection and on filesystem failure, renamed away
on success. -/
def process_upload (h : HistoryStore) (db : DbLog) (wg : Int)
    (event : ClientFileEvent) (client_host client_id : Option String)
    (freshId : Nat) (createDirOk renameOk : Bool) : UploadOutcome :=
  if event.utc_millis < latestMillisD h wg event.relative_path then
    ⟨.badRequest "not latest", h, db, true⟩
  else
    match event.temp_file_path with
    | none => ⟨.panicked, h, db, true⟩
    | some _ =>
      if !createDirOk then ⟨.internalServerError, h, db, true⟩
      else if !renameOk then ⟨.internalServerError, h, db, true⟩
      else
        let fe := publishedEvent freshId wg event client_host
        let db2 := match client_id with
          | some cid => db ++ [(fe, cid)]
          | none => db
        ⟨.ok, historyAdd h fe, db2, true⟩

/-! ## Delete pipeline (server/src/handler/sync.rs, delete) -/

inductive DeleteResult where
  | ok
  | okInfoFileMissing
  | internalServerError
deriving DecidableEq

/-- The `delete` handler: parse the payload through
`MatchablePath::from(&str)` (which can panic on an empty component list,
modelled as `none`), build a Delete event with size 0 at server time `now`,
then branch on whether the resolved file exists and whether
`fs::remove_file` succeeds.  A missing `X-Client-Id` header skips the
durable insert; a failed DB insert is only logged. -/
def delete_handler (h : HistoryStore) (db : DbLog) (wg : Int) (payload : String)
    (client_host client_id : Option String) (now freshId : Nat)
    (fileExists removeOk : Bool) :
    Option (DeleteResult × HistoryStore × DbLog) :=
  match MatchablePath.fromString payload with
  | none => none
  | some mp =>
    let event : FileEvent :=
      { id := freshId
        utc_millis := now
        relative_path := mp
        size_in_bytes := 0
        event_type := .DeleteEvent
        client_host := client_host
        watch_group_id := wg }
    if !fileExists then
      some (.okInfoFileMissing, historyAdd h event, db)
    else if removeOk then
      let db2 := match client_id with
        | some cid => db ++ [(event, cid)]
        | none => db
      some (.ok, historyAdd h event, db2)
    else
      some (.internalServerError, h, db)

/-! ## Config endpoint (server/src/handler/config/client.rs and
server/src/handler/config/sys.rs; shared/src/register.rs; route wiring in
server/src/main.rs and server/src/handler/mod.rs) -/

structure WatchGroupConfigDto where
  path_to_monitor : String
  exclude_dirs : List String
  exclude_dot_dirs : Bool
  name : String
deriving DecidableEq

structure WatchConfigDto where
  min_poll_interval_in_ms : Nat
  watch_groups : List (Int × WatchGroupConfigDto)
deriving DecidableEq

/-- `impl Default for WatchConfigDto`. -/
def WatchConfigDto.defaultConfig : WatchConfigDto :=
  { min_poll_interval_in_ms := 5000, watch_groups := [] }

/-- The client-config table: client id to (host name, watch config). -/
abbrev ConfigDb := List (String × String × WatchConfigDto)

/-- `ClientRepository::get_client_config`. -/
def get_client_config (db : ConfigDb) (cid : String) : Option WatchConfigDto :=
  (db.find? (fun row => row.1 == cid)).map (fun row => row.2.2)

/-- `ClientRepository::upsert_client_config`: replace the row when the
client id is present, insert it otherwise. -/
def upsert_client_config (db : ConfigDb) (cid host : String)
    (cfg : WatchConfigDto) : ConfigDb :=
  if db.any (fun row => row.1 == cid) then
    db.map (fun row => if row.1 = cid then (cid, host, cfg) else row)
  else db ++ [(cid, host, cfg)]

inductive ConfigResponse where
  | okJson (cfg : WatchConfigDto)
  | badRequestMissingHeader
  | notFoundNotRegistered
deriving DecidableEq

/-- `config::client::get_config` — the handler the `Config` route is wired
to (`handler::get_config` re-exports it in handler/mod.rs, main.rs routes
`ServerEndpoint::Config` to it): 404 "Client not registered" when the
client has no stored config, never inserting anything. -/
def client_get_config (db : ConfigDb) (clientId : Option String) :
    ConfigResponse × ConfigDb :=
  match clientId with
  | none => (.badRequestMissingHeader, db)
  | some cid =>
    match get_client_config db cid with
    | some cfg => (.okJson cfg, db)
    | none => (.notFoundNotRegistered, db)

/-- `config::sys::get_config` — the handler no route is wired to: on a
missing config it upserts the default `WatchConfigDto` under
`(client_id, host_name)` and returns it. -/
def sys_get_config (db : ConfigDb) (clientId hostName : Option String) :
    ConfigResponse × ConfigDb :=
  match clientId with
  | none => (.badRequestMissingHeader, db)
  | some cid =>
    match hostName with
    | none => (.badRequestMissingHeader, db)
    | some host =>
      match get_client_config db cid with
      | some cfg => (.okJson cfg, db)
      | none =>
        (.okJson WatchConfigDto.defaultConfig,
          upsert_client_config db cid host WatchConfigDto.defaultConfig)

/-- The handler actually registered on the config route. -/
def config_route_handler (db : ConfigDb) (clientId : Option String) :
    ConfigResponse × ConfigDb :=
  client_get_config db clientId

/-! ## Download pipeline (server/src/handler/sync.rs, download) -/

/-- `upload_path_for_wg`: `UPLOAD_PATH.join(wg_id.to_string())`, as segments
(the constant `./data/upload` prefix with its CurDir dropped). -/
def uploadRoot (wg : Int) : List String :=
  ["data", "upload", toString wg]

/-- The path segments the download handler appends under the watch-group
root: `MatchablePath::from(payload.split('/').collect::<Vec<&str>>())`. -/
def downloadSegs (payload : String) : List String :=
  (MatchablePath.fromVecString (splitSlash payload)).segs

/-- The filesystem path the download handler opens, as segments. -/
def downloadPath (wg : Int) (payload : String) : List String :=
  uploadRoot wg ++ downloadSegs payload

/-- Unix path resolution on segment lists: `..` pops one component, `.` and
empty segments are no-ops, anything else descends.  Used to give "the opened
path never escapes the root" semantic content. -/
def resolveStep (acc : List String) (seg : String) : List String :=
  if seg = ".." then acc.dropLast
  else if seg = "." ∨ seg = "" then acc
  else acc ++ [seg]

def resolvePath (root : List String) (segs : List String) : List String :=
  segs.foldl resolveStep root

/-! ## Interleaved uploads (server/src/handler/sync.rs + file_history.rs):
each History operation is one critical section of the store mutex, the
admission read and the insert are separate critical sections (the lock is
released inside `get_latest_event`, and `process_upload` even awaits the DB
insert between the rename and `history.add`).  A task is modelled by the two
atomic actions the lock actually protects. -/

structure UploadTaskState where
  event : FileEvent
  checked : Bool
  admitted : Bool
  inserted : Bool
deriving DecidableEq

def initTask (e : FileEvent) : UploadTaskState :=
  { event := e, checked := false, admitted := false, inserted := false }

/-- One scheduler step of an upload task: first the admission check (a
single locked `get_latest_event`), then - when admitted - the locked
`add`.  Steps after completion do nothing. -/
def taskStep (h : HistoryStore) (t : UploadTaskState) :
    HistoryStore × UploadTaskState :=
  if t.checked = false then
    (h, { t with
            checked := true
            admitted :=
              decide (latestMillisD h t.event.watch_group_id t.event.relative_path
                ≤ t.event.utc_millis) })
  else if t.admitted && !t.inserted then
    (historyAdd h t.event, { t with inserted := true })
  else (h, t)

/-- Run two upload tasks under an explicit interleaving: `true` steps the
first task, `false` the second. -/
def runSched (h : HistoryStore) (t1 t2 : UploadTaskState) :
    List Bool → HistoryStore × UploadTaskState × UploadTaskState
  | [] => (h, t1, t2)
  | b :: rest =>
    if b then
      let s := taskStep h t1
      runSched s.1 s.2 t2 rest
    else
      let s := taskStep h t2
      runSched s.1 t1 s.2 rest

/-! ## Snapshot reader (shared/src/get_files_of_directory.rs)

The directory tree is modelled as a finite inductive value whose entries
appear in `read_dir` order; every file carries a size and a modification
time (the code fails the whole scan when the mtime is missing, which the
model does not represent).  Paths are joined with `/` exactly as
`Path::join` does on Unix. -/

/-- A directory's entry list in `read_dir` order: either exhausted, or a
file followed by the remaining entries, or a directory (with its own entry
list) followed by the remaining entries. -/
inductive FsEntries where
  | done
  | file (name : String) (size : Nat) (mtime : Nat) (rest : FsEntries)
  | dir (name : String) (children : FsEntries) (rest : FsEntries)

def leadsWith : List Char → List Char → Bool
  | _, [] => true
  | [], _ :: _ => false
  | h :: t, p :: ps => h == p && leadsWith t ps

def containsSub (hay pat : List Char) : Bool :=
  match hay with
  | [] => pat.isEmpty
  | _ :: t => leadsWith hay pat || containsSub t pat

/-- Rust `str::contains(pat)`: `pat` occurs as a contiguous substring. -/
def strContains (s pat : String) : Bool :=
  containsSub s.data pat.data

/-- Rust `Path::extension()` of a plain file name, with the `unwrap_or("")`
of the scanner: empty when there is no embedded `.`, or when the name starts
with `.` and has no further `.`; otherwise the part after the final `.`. -/
def extensionOf (name : String) : String :=
  let parts := (splitOnChar '.' name.data).map (fun l => (⟨l⟩ : String))
  if parts.length ≤ 1 then ""
  else if startsWithChar name '.' && parts.length == 2 then ""
  else (parts.getLast?).getD ""

/-- `inner_get_files_of_dir_rec`: walk the entries of the current directory
in order; skip an entry whose name starts with `.` when `exDot` is set, skip
an entry whose full path contains any exclusion substring, skip files named
`.ds_store` case-insensitively; record remaining files (relative path =
accumulated segments, `./` prefix dropped by `MatchablePath::from`); recurse
into remaining directories. -/
def scanList (cur : String) (rel : List String) (excl : List String)
    (exDot : Bool) : FsEntries → List FileDescription
  | .done => []
  | .file n size mtime rest =>
    if exDot && startsWithChar n '.' then scanList cur rel excl exDot rest
    else if excl.any (fun x => strContains (cur ++ "/" ++ n) x) then
      scanList cur rel excl exDot rest
    else if strLower n == ".ds_store" then scanList cur rel excl exDot rest
    else
      { file_name := n
        relative_path := ⟨rel ++ [n]⟩
        size_in_bytes := size
        file_type := extensionOf n
        last_updated_utc_millis := mtime } :: scanList cur rel excl exDot rest
  | .dir n children rest =>
    if exDot && startsWithChar n '.' then scanList cur rel excl exDot rest
    else if excl.any (fun x => strContains (cur ++ "/" ++ n) x) then
      scanList cur rel excl exDot rest
    else
      scanList (cur ++ "/" ++ n) (rel ++ [n]) excl exDot children ++
        scanList cur rel excl exDot rest

/-- `get_all_file_descriptions`: scan from the root with empty relative
accumulator. -/
def get_all_file_descriptions (root : String) (excl : List String)
    (exDot : Bool) (entries : FsEntries) : List FileDescription :=
  scanList root [] excl exDot entries

/-- All files of the tree with the metadata the skip rules consult: the
description the scanner would build, the full path string, and whether any
name on the chain from the scan root down to the file (directories and the
file itself) starts with a dot. -/
def filesWithMeta (cur : String) (rel : List String) :
    FsEntries → List (FileDescription × String × Bool)
  | .done => []
  | .file n size mtime rest =>
    ({ file_name := n
       relative_path := ⟨rel ++ [n]⟩
       size_in_bytes := size
       file_type := extensionOf n
       last_updated_utc_millis := mtime },
      cur ++ "/" ++ n, startsWithChar n '.') :: filesWithMeta cur rel rest
  | .dir n children rest =>
    (filesWithMeta (cur ++ "/" ++ n) (rel ++ [n]) children).map
      (fun t => (t.1, t.2.1, t.2.2 || startsWithChar n '.')) ++
      filesWithMeta cur rel rest

/-- The skip rule of the scanner, phrased on a file's metadata: a dot name
anywhere on the chain (when `exDot`), an exclusion substring in the full
path, or the macOS `.ds_store` name. -/
def skipFile (excl : List String) (exDot : Bool)
    (t : FileDescription × String × Bool) : Bool :=
  (exDot && t.2.2) || excl.any (fun x => strContains t.2.1 x) ||
    strLower t.1.file_name == ".ds_store"

def c2Path : MatchablePath := ⟨["a", "b.txt"]⟩

def c2Stored : FileEvent :=
  { id := 1, utc_millis := 5, relative_path := c2Path, size_in_bytes := 10
    event_type := .ChangeEvent, client_host := none, watch_group_id := 1 }

def c2Store : HistoryStore := [((1, c2Path), [c2Stored])]

def c2Event : ClientFileEvent :=
  { utc_millis := 5, relative_path := c2Path, event_type := .ChangeEvent
    temp_file_path := some "tmp", content_size := 12 }

def c3Path : MatchablePath := ⟨["f.txt"]⟩

def c3Ev1 : FileEvent :=
  { id := 1, utc_millis := 10, relative_path := c3Path, size_in_bytes := 1
    event_type := .ChangeEvent, client_host := none, watch_group_id := 1 }

def c3Ev2 : FileEvent :=
  { id := 2, utc_millis := 20, relative_path := c3Path, size_in_bytes := 2
    event_type := .ChangeEvent, client_host := none, watch_group_id := 1 }

def c3Ev3 : FileEvent :=
  { id := 3, utc_millis := 20, relative_path := c3Path, size_in_bytes := 3
    event_type := .DeleteEvent, client_host := some "arch", watch_group_id := 1 }

def c9Path : MatchablePath := ⟨["r.txt"]⟩

def c9E1 : FileEvent :=
  { id := 1, utc_millis := 1, relative_path := c9Path, size_in_bytes := 1
    event_type := .ChangeEvent, client_host := none, watch_group_id := 1 }

def c9E2 : FileEvent :=
  { id := 2, utc_millis := 2, relative_path := c9Path, size_in_bytes := 2
    event_type := .ChangeEvent, client_host := none, watch_group_id := 1 }

/-! ## Theorems for the individual claims, with their supporting lemmas -/

/-! ### Lookup lemmas for `historyAdd` -/

theorem bumpEntry_fst (k : HistoryKey) (e : FileEvent) (kv : HistoryKey × List FileEvent) :
    (bumpEntry k e kv).1 = kv.1 := by
  unfold bumpEntry; split <;> rfl

theorem lookupEvents_map_bump_same (s : HistoryStore) (k : HistoryKey) (e : FileEvent) :
    lookupEvents (s.map (bumpEntry k e)) k =
      (lookupEvents s k).map (fun v => v ++ [e]) := by
  induction s with
  | nil => rfl
  | cons kv t ih =>
    rw [List.map_cons]
    by_cases h : kv.1 = k
    · have hb : bumpEntry k e kv = (kv.1, kv.2 ++ [e]) := by unfold bumpEntry; rw [if_pos h]
      unfold lookupEvents
      rw [hb, List.find?_cons_of_pos _ (by simpa using h),
        List.find?_cons_of_pos _ (by simpa using h)]
      rfl
    · unfold lookupEvents
      rw [List.find?_cons_of_neg _ (by simp [bumpEntry_fst, h]),
        List.find?_cons_of_neg _ (by simpa using h)]
      exact ih

theorem lookupEvents_map_bump_other (s : HistoryStore) (k k' : HistoryKey) (e : FileEvent)
    (hne : k' ≠ k) :
    lookupEvents (s.map (bumpEntry k e)) k' = lookupEvents s k' := by
  induction s with
  | nil => rfl
  | cons kv t ih =>
    rw [List.map_cons]
    by_cases h : kv.1 = k'
    · have hb : bumpEntry k e kv = kv := by
        unfold bumpEntry; rw [if_neg]; rw [h]; exact hne
      unfold lookupEvents
      rw [hb, List.find?_cons_of_pos _ (by simpa using h),
        List.find?_cons_of_pos _ (by simpa using h)]
    · unfold lookupEvents
      rw [List.find?_cons_of_neg _ (by simp [bumpEntry_fst, h]),
        List.find?_cons_of_neg _ (by simpa using h)]
      exact ih

theorem lookupEvents_append_single (s : HistoryStore) (k : HistoryKey) (v : List FileEvent)
    (h : lookupEvents s k = none) :
    lookupEvents (s ++ [(k, v)]) k = some v := by
  induction s with
  | nil =>
    unfold lookupEvents
    rw [List.nil_append, List.find?_cons_of_pos _ (by simp)]
    rfl
  | cons kv t ih =>
    unfold lookupEvents at *
    rw [List.cons_append]
    cases hbeq : (kv.1 == k) with
    | true =>
      rw [List.find?_cons_of_pos (p := fun kv : HistoryKey × List FileEvent => kv.1 == k) _ hbeq] at h
      simp at h
    | false =>
      rw [List.find?_cons_of_neg (p := fun kv : HistoryKey × List FileEvent => kv.1 == k) _ (by simp [hbeq])]
      rw [List.find?_cons_of_neg (p := fun kv : HistoryKey × List FileEvent => kv.1 == k) _ (by simp [hbeq])] at h
      exact ih h

theorem lookupEvents_add_same (s : HistoryStore) (e : FileEvent) :
    lookupEvents (historyAdd s e) e.key =
      some ((lookupEvents s e.key).getD [] ++ [e]) := by
  unfold historyAdd
  by_cases h : s.any (fun kv => kv.1 == e.key)
  · rw [if_pos h, lookupEvents_map_bump_same]
    rcases List.any_eq_true.mp h with ⟨kv, hmem, hkv⟩
    have : (s.find? (fun kv => kv.1 == e.key)).isSome := by
      rw [List.find?_isSome]
      exact ⟨kv, hmem, hkv⟩
    rcases Option.isSome_iff_exists.mp this with ⟨kv', hfind⟩
    simp [lookupEvents, hfind]
  · rw [if_neg h]
    have hnone : lookupEvents s e.key = none := by
      have : s.find? (fun kv => kv.1 == e.key) = none := by
        rw [List.find?_eq_none]
        intro x hx
        by_contra hc
        exact h (List.any_eq_true.mpr ⟨x, hx, by simpa using hc⟩)
      simp [lookupEvents, this]
    rw [lookupEvents_append_single s e.key [e] hnone, hnone]
    rfl

theorem lookupEvents_add_other (s : HistoryStore) (e : FileEvent) (k : HistoryKey)
    (hne : k ≠ e.key) :
    lookupEvents (historyAdd s e) k = lookupEvents s k := by
  unfold historyAdd
  by_cases h : s.any (fun kv => kv.1 == e.key)
  · rw [if_pos h, lookupEvents_map_bump_other s e.key k e hne]
  · rw [if_neg h]
    clear h
    induction s with
    | nil =>
      unfold lookupEvents
      rw [List.nil_append, List.find?_cons_of_neg _ (by simpa using hne.symm)]
    | cons kv t ih =>
      unfold lookupEvents at *
      rw [List.cons_append]
      cases hbeq : (kv.1 == k) with
      | true =>
        rw [List.find?_cons_of_pos (p := fun kv : HistoryKey × List FileEvent => kv.1 == k) _ hbeq,
          List.find?_cons_of_pos (p := fun kv : HistoryKey × List FileEvent => kv.1 == k) _ hbeq]
      | false =>
        rw [List.find?_cons_of_neg (p := fun kv : HistoryKey × List FileEvent => kv.1 == k) _ (by simp [hbeq]),
          List.find?_cons_of_neg (p := fun kv : HistoryKey × List FileEvent => kv.1 == k) _ (by simp [hbeq])]
        exact ih

theorem lookupEvents_of_mem (s : HistoryStore) (kv : HistoryKey × List FileEvent)
    (hnd : keysNodup s) (hmem : kv ∈ s) : lookupEvents s kv.1 = some kv.2 := by
  induction s with
  | nil => cases hmem
  | cons hd t ih =>
    rcases List.mem_cons.mp hmem with rfl | hmem'
    · unfold lookupEvents
      rw [List.find?_cons_of_pos _ (by simp)]
      rfl
    · have hne : hd.1 ≠ kv.1 := by
        intro hc
        have : kv.1 ∈ t.map (fun kv => kv.1) := List.mem_map_of_mem _ hmem'
        unfold keysNodup at hnd
        rw [List.map_cons, List.nodup_cons] at hnd
        exact hnd.1 (hc ▸ this)
      unfold lookupEvents
      rw [List.find?_cons_of_neg _ (by simp [hne])]
      exact ih (by
        unfold keysNodup at hnd ⊢
        rw [List.map_cons, List.nodup_cons] at hnd
        exact hnd.2) hmem'

theorem keysNodup_historyAdd (s : HistoryStore) (e : FileEvent) (hnd : keysNodup s) :
    keysNodup (historyAdd s e) := by
  unfold historyAdd
  by_cases h : s.any (fun kv => kv.1 == e.key)
  · rw [if_pos h]
    unfold keysNodup at *
    rw [List.map_map]
    have : ((fun kv : HistoryKey × List FileEvent => kv.1) ∘ bumpEntry e.key e) =
        fun kv => kv.1 := funext (fun kv => bumpEntry_fst e.key e kv)
    rw [this]
    exact hnd
  · rw [if_neg h]
    unfold keysNodup at *
    rw [List.map_append]
    simp only [List.map_cons, List.map_nil]
    rw [List.nodup_append]
    refine ⟨hnd, List.nodup_singleton _, ?_⟩
    intro k hk hk'
    rcases List.mem_map.mp hk with ⟨kv, hkv, rfl⟩
    have : (kv.1 == e.key) = false := by
      cases hbeq : (kv.1 == e.key) with
      | true => exact absurd (List.any_eq_true.mpr ⟨kv, hkv, hbeq⟩) h
      | false => rfl
    simp only [List.mem_singleton] at hk'
    simp [hk'] at this

theorem historyInv_historyAdd (s : HistoryStore) (e : FileEvent)
    (hinv : historyInv s) (hnd : keysNodup s)
    (hpre : latestMillisD s e.watch_group_id e.relative_path ≤ e.utc_millis) :
    historyInv (historyAdd s e) := by
  have hlatest : ∀ v, lookupEvents s e.key = some v →
      ∀ x ∈ v.getLast?, millisLe x e := by
    intro v hv x hx
    have : latestMillisD s e.watch_group_id e.relative_path = x.utc_millis := by
      unfold latestMillisD getLatestEvent getEvents
      have hk : ((e.watch_group_id, e.relative_path) : HistoryKey) = e.key := rfl
      rw [hk, hv]
      simp [Option.mem_def.mp hx]
    unfold millisLe
    rw [← this]
    exact hpre
  unfold historyAdd
  by_cases h : s.any (fun kv => kv.1 == e.key)
  · rw [if_pos h]
    intro kv' hmem'
    rcases List.mem_map.mp hmem' with ⟨kv, hkv, rfl⟩
    by_cases hk : kv.1 = e.key
    · have hb : bumpEntry e.key e kv = (kv.1, kv.2 ++ [e]) := by
        unfold bumpEntry; rw [if_pos hk]
      rw [hb]
      rcases hinv kv hkv with ⟨hchain, hpaths⟩
      constructor
      · rw [List.chain'_append]
        refine ⟨hchain, List.chain'_singleton e, ?_⟩
        intro x hx y hy
        simp only [List.head?_cons, Option.mem_def, Option.some.injEq] at hy
        subst hy
        have hlook : lookupEvents s e.key = some kv.2 := by
          rw [← hk]; exact lookupEvents_of_mem s kv hnd hkv
        exact hlatest kv.2 hlook x hx
      · intro x hx
        rcases List.mem_append.mp hx with hx' | hx'
        · exact hpaths x hx'
        · simp only [List.mem_singleton] at hx'
          subst hx'
          rw [hk]
          rfl
    · have hb : bumpEntry e.key e kv = kv := by unfold bumpEntry; rw [if_neg hk]
      rw [hb]
      exact hinv kv hkv
  · rw [if_neg h]
    intro kv' hmem'
    rcases List.mem_append.mp hmem' with hx | hx
    · exact hinv kv' hx
    · simp only [List.mem_singleton] at hx
      subst hx
      exact ⟨List.chain'_singleton e, by intro x hx; simp only [List.mem_singleton] at hx; subst hx; rfl⟩

theorem lookupEvents_foldl_add (l : List FileEvent) (s : HistoryStore) (k : HistoryKey) :
    (lookupEvents (l.foldl historyAdd s) k).getD [] =
      (lookupEvents s k).getD [] ++ l.filter (fun e => e.key == k) := by
  induction l generalizing s with
  | nil => simp
  | cons e t ih =>
    rw [List.foldl_cons, ih (historyAdd s e)]
    by_cases hk : k = e.key
    · subst hk
      rw [lookupEvents_add_same s e]
      rw [List.filter_cons_of_pos (by simp)]
      simp [List.append_assoc]
    · rw [lookupEvents_add_other s e k hk]
      rw [List.filter_cons_of_neg (by simpa using fun hc => hk hc.symm)]

theorem keysNodup_foldl_add (l : List FileEvent) (s : HistoryStore) (hnd : keysNodup s) :
    keysNodup (l.foldl historyAdd s) := by
  induction l generalizing s with
  | nil => exact hnd
  | cons e t ih => exact ih (historyAdd s e) (keysNodup_historyAdd s e hnd)

/-- The input as the constructor reorders it: unchanged when strictly
chronological, otherwise stably sorted by `utc_millis`. -/
theorem chain'_of_strictlySorted (l : List FileEvent)
    (h : isStrictlySortedByMillis l = true) : List.Chain' millisLt l := by
  match l with
  | [] => exact List.chain'_nil
  | [a] => exact List.chain'_singleton a
  | a :: b :: t =>
    rw [isStrictlySortedByMillis, Bool.and_eq_true] at h
    rw [List.chain'_cons]
    exact ⟨of_decide_eq_true h.1, chain'_of_strictlySorted (b :: t) h.2⟩

theorem pairwise_sortIfNeeded (l : List FileEvent) :
    List.Pairwise millisLe (sortIfNeeded l) := by
  unfold sortIfNeeded
  split
  · rename_i hsorted
    exact (List.chain'_iff_pairwise.mp (chain'_of_strictlySorted l hsorted)).imp
      (fun h => Nat.le_of_lt h)
  · exact List.sorted_insertionSort millisLe l

theorem historyFromVec_eq_foldl (l : List FileEvent) :
    historyFromVec l = (sortIfNeeded l).foldl historyAdd [] := rfl

theorem historyInv_historyFromVec (l : List FileEvent) :
    historyInv (historyFromVec l) := by
  rw [historyFromVec_eq_foldl]
  intro kv hmem
  have hnd : keysNodup ((sortIfNeeded l).foldl historyAdd []) :=
    keysNodup_foldl_add _ [] (by unfold keysNodup; simp)
  have hlook := lookupEvents_of_mem _ kv hnd hmem
  have hchar := lookupEvents_foldl_add (sortIfNeeded l) [] kv.1
  rw [hlook] at hchar
  have hval : kv.2 = (sortIfNeeded l).filter (fun e => e.key == kv.1) := by
    simpa [lookupEvents] using hchar
  constructor
  · rw [hval]
    apply List.chain'_iff_pairwise.mpr
    exact (pairwise_sortIfNeeded l).sublist (List.filter_sublist _)
  · intro x hx
    rw [hval] at hx
    have := List.of_mem_filter hx
    have hk : x.key = kv.1 := by simpa using this
    rw [← hk]
    rfl

theorem keysNodup_historyFromVec (l : List FileEvent) :
    keysNodup (historyFromVec l) := by
  rw [historyFromVec_eq_foldl]
  exact keysNodup_foldl_add _ [] (by unfold keysNodup; simp)

theorem historyReachable_inv_nodup (s : HistoryStore) (h : historyReachable s) :
    historyInv s ∧ keysNodup s := by
  induction h with
  | ctor l => exact ⟨historyInv_historyFromVec l, keysNodup_historyFromVec l⟩
  | step s e _ hpre ih =>
    exact ⟨historyInv_historyAdd s e ih.1 ih.2 hpre, keysNodup_historyAdd s e ih.2⟩

theorem filterMap_eq_flatMap_toList {α β : Type} (f : α → Option β) (l : List α) :
    l.filterMap f = l.flatMap (fun a => (f a).toList) := by
  induction l with
  | nil => rfl
  | cons a t ih =>
    cases h : f a <;> simp [List.filterMap_cons, h, ih, Option.toList]

theorem instructionFor_eq_spec (client : List FileDescription) (e : FileEvent) :
    (instructionFor client e).toList = reconcileSpecEvent client e := by
  unfold instructionFor reconcileSpecEvent
  cases hfind : client.find? (fun c => c.relative_path == e.relative_path) with
  | none =>
    cases e.event_type <;> simp
  | some c =>
    cases htype : e.event_type with
    | ChangeEvent =>
      by_cases hsize : c.size_in_bytes = e.size_in_bytes
      · simp [hsize, FileEventType.is_change, FileEventType.is_delete]
      · by_cases hage : c.last_updated_utc_millis < e.utc_millis <;>
          simp [hsize, hage, FileEventType.is_change, FileEventType.is_delete]
    | DeleteEvent =>
      by_cases hage : c.last_updated_utc_millis < e.utc_millis <;>
        simp [hage, FileEventType.is_change, FileEventType.is_delete]

theorem clientOnly_eq_spec (target : List FileEvent) (c : FileDescription) :
    (if target.any (fun e => e.relative_path == c.relative_path) then
        (none : Option SyncInstruction)
      else some (.Upload c.relative_path)).toList =
      reconcileSpecClientOnly target c := by
  unfold reconcileSpecClientOnly
  by_cases h : target.any (fun e => e.relative_path == c.relative_path) <;> simp [h]

/-- C1.  For every latest-per-path event list `target` (in map iteration
order) and every client snapshot, the sync handler loop emits exactly the
instructions the reconciliation algorithm of the specification prescribes:
per server event, Download for a Change missing on the client and nothing
for a missing Delete; nothing for a size-equal Change; Download or Delete
when the client copy is strictly older, Upload otherwise; then an Upload for
every client-only path, server events first, client order preserved. -/
theorem sync_handler_matches_reconciliation (target : List FileEvent)
    (client : List FileDescription) :
    sync_handler_core target client = reconcileSpec target client := by
  unfold sync_handler_core reconcileSpec
  rw [filterMap_eq_flatMap_toList, filterMap_eq_flatMap_toList]
  congr 1
  · exact List.flatMap_congr (fun e _ => instructionFor_eq_spec client e)
  · exact List.flatMap_congr (fun c _ => clientOnly_eq_spec target c)

theorem historyAdd_ne (s : HistoryStore) (e : FileEvent) : historyAdd s e ≠ s := by
  intro hc
  have h1 := lookupEvents_add_same s e
  rw [hc] at h1
  cases h : lookupEvents s e.key with
  | none => rw [h] at h1; exact Option.noConfusion h1
  | some v =>
    rw [h] at h1
    have h2 : v = v ++ [e] := by
      have := h1
      simp only [Option.getD_some, Option.some.injEq] at this
      exact this
    have := congrArg List.length h2
    simp at this

theorem getEventsD_historyAdd_self (h : HistoryStore) (fe : FileEvent) :
    getEventsD (historyAdd h fe) fe.watch_group_id fe.relative_path =
      getEventsD h fe.watch_group_id fe.relative_path ++ [fe] := by
  unfold getEventsD getEvents
  have hk : ((fe.watch_group_id, fe.relative_path) : HistoryKey) = fe.key := rfl
  rw [hk, lookupEvents_add_same h fe]
  rfl

/-- C2.  The upload pipeline rejects with 400 "not latest", removes the temp
file, and leaves both History and the durable event store unmutated exactly
when the uploaded timestamp is strictly below the stored latest (0 when no
event exists); an upload whose timestamp equals the stored latest passes the
admission check, and - when the filesystem operations succeed - publishes
and appends its event to the per-path history after the earlier one. -/
theorem upload_admission_characterization
    (h : HistoryStore) (db : DbLog) (wg : Int) (event : ClientFileEvent)
    (client_host client_id : Option String) (freshId : Nat)
    (createDirOk renameOk : Bool) (out : UploadOutcome)
    (hout : out = process_upload h db wg event client_host client_id freshId
      createDirOk renameOk) :
    ((out.result = .badRequest "not latest" ∧ out.history = h ∧ out.db = db ∧
        out.tempFileGone = true)
      ↔ event.utc_millis < latestMillisD h wg event.relative_path)
    ∧ (∀ t, event.temp_file_path = some t → createDirOk = true → renameOk = true →
        event.utc_millis = latestMillisD h wg event.relative_path →
        out.result = .ok ∧
        getEventsD out.history wg event.relative_path =
          getEventsD h wg event.relative_path ++
            [publishedEvent freshId wg event client_host]) := by
  subst hout
  by_cases hstale : event.utc_millis < latestMillisD h wg event.relative_path
  · rw [process_upload, if_pos hstale]
    refine ⟨⟨fun _ => hstale, fun _ => ⟨rfl, rfl, rfl, rfl⟩⟩, ?_⟩
    intro t _ _ _ heq
    omega
  · rw [process_upload, if_neg hstale]
    cases htemp : event.temp_file_path with
    | none =>
      refine ⟨⟨?_, fun hc => absurd hc hstale⟩, ?_⟩
      · intro hc
        obtain ⟨hr, -⟩ := hc
        simp at hr
      · intro t ht
        exact Option.noConfusion ht
    | some t0 =>
      cases createDirOk with
      | false =>
        refine ⟨⟨?_, fun hc => absurd hc hstale⟩, ?_⟩
        · intro hc
          obtain ⟨hr, -⟩ := hc
          simp at hr
        · intro t _ hc
          exact Bool.noConfusion hc
      | true =>
        cases renameOk with
        | false =>
          refine ⟨⟨?_, fun hc => absurd hc hstale⟩, ?_⟩
          · intro hc
            obtain ⟨hr, -⟩ := hc
            simp at hr
          · intro t _ _ hc
            exact Bool.noConfusion hc
        | true =>
          refine ⟨⟨?_, fun hc => absurd hc hstale⟩, ?_⟩
          · intro hc
            obtain ⟨-, hh, -, -⟩ := hc
            exact absurd
              (show historyAdd h (publishedEvent freshId wg event client_host) = h by
                simpa using hh)
              (historyAdd_ne h (publishedEvent freshId wg event client_host))
          · intro t _ _ _ _
            exact ⟨rfl, getEventsD_historyAdd_self h
              (publishedEvent freshId wg event client_host)⟩

/-- Witness for C2: an upload whose timestamp equals the stored latest (5)
is admitted and its event lands after the stored one. -/
theorem upload_admission_characterization_witness :
    (process_upload c2Store [] 1 c2Event (some "host") (some "cid") 9 true true).result
        = .ok ∧
      getEventsD
        (process_upload c2Store [] 1 c2Event (some "host") (some "cid") 9 true true).history
        1 c2Event.relative_path =
        [c2Stored, publishedEvent 9 1 c2Event (some "host")] := by
  have hm := upload_admission_characterization c2Store [] 1 c2Event (some "host")
    (some "cid") 9 true true _ rfl
  have h2 := hm.2 "tmp" rfl rfl rfl (by decide)
  refine ⟨h2.1, ?_⟩
  rw [h2.2]
  decide

/-- C3.  Under the admission precondition - every `add` supplies an event
whose `utc_millis` is at least the stored latest for its
`(watch_group_id, relative_path)` key - every reachable history state keeps,
for every key, a vector sorted by `utc_millis` non-decreasing whose
elements' paths all equal the key; the `From<Vec<FileEvent>>` constructor
establishes the invariant from an arbitrary vector, sorting the input when
it is not already sorted (the `ctor` case of reachability). -/
theorem history_reachable_states_sorted_grouped (s : HistoryStore)
    (h : historyReachable s) : historyInv s :=
  (historyReachable_inv_nodup s h).1

/-- Witness for C3: a state built from an out-of-order vector and one
admitted `add` (equal timestamp allowed) satisfies the invariant. -/
theorem history_reachable_states_sorted_grouped_witness :
    historyInv (historyAdd (historyFromVec [c3Ev2, c3Ev1]) c3Ev3) :=
  history_reachable_states_sorted_grouped _
    (historyReachable.step _ c3Ev3 (historyReachable.ctor [c3Ev2, c3Ev1]) (by decide))

/-- C4 counterexample.  A delete request whose file exists and whose removal
succeeds, but which carries no `X-Client-Id` header, answers 200 and appends
the Delete event to History while leaving the EventStore empty - the claim
as stated says the event is appended to the EventStore whenever removal
succeeds. -/
theorem delete_missing_client_id_counterexample :
    delete_handler [] [] 1 "a/b.txt" none none 50 7 true true =
      some (.ok,
        [((1, ⟨["a", "b.txt"]⟩),
          [{ id := 7, utc_millis := 50, relative_path := ⟨["a", "b.txt"]⟩
             size_in_bytes := 0, event_type := .DeleteEvent, client_host := none
             watch_group_id := 1 }])],
        []) := by
  rfl

/-- C4 amended.  For every delete request with a parseable path: a missing
file appends exactly one Delete event (size 0, server-now timestamp) to
History only and answers 200 with the informational message; an existing
file whose removal succeeds appends the event to History, and to the
EventStore exactly when the request carries a client id; a failed removal
answers 500 and mutates neither. -/
theorem delete_handler_characterization
    (h : HistoryStore) (db : DbLog) (wg : Int) (payload : String)
    (client_host client_id : Option String) (now freshId : Nat)
    (fileExists removeOk : Bool) (mp : MatchablePath)
    (hmp : MatchablePath.fromString payload = some mp) (ev : FileEvent)
    (hev : ev = { id := freshId, utc_millis := now, relative_path := mp
                  size_in_bytes := 0, event_type := .DeleteEvent
                  client_host := client_host, watch_group_id := wg }) :
    (fileExists = false →
      delete_handler h db wg payload client_host client_id now freshId
          fileExists removeOk = some (.okInfoFileMissing, historyAdd h ev, db))
    ∧ (fileExists = true → removeOk = true →
      delete_handler h db wg payload client_host client_id now freshId
          fileExists removeOk =
        some (.ok, historyAdd h ev,
          match client_id with
          | some cid => db ++ [(ev, cid)]
          | none => db))
    ∧ (fileExists = true → removeOk = false →
      delete_handler h db wg payload client_host client_id now freshId
          fileExists removeOk = some (.internalServerError, h, db)) := by
  subst hev
  unfold delete_handler
  rw [hmp]
  refine ⟨fun hf => ?_, fun hf hr => ?_, fun hf hr => ?_⟩
  · subst hf; rfl
  · subst hf; subst hr; rfl
  · subst hf; subst hr; rfl

/-- Witness for C4 (amended): deleting a missing file appends one event to
History and nothing to the EventStore. -/
theorem delete_handler_characterization_witness :
    delete_handler [] [] 1 "dir/x.txt" (some "host") (some "cid") 50 7 false true =
      some (.okInfoFileMissing,
        historyAdd []
          { id := 7, utc_millis := 50, relative_path := ⟨["dir", "x.txt"]⟩
            size_in_bytes := 0, event_type := .DeleteEvent
            client_host := some "host", watch_group_id := 1 },
        []) := by
  have hm := delete_handler_characterization [] [] 1 "dir/x.txt" (some "host")
    (some "cid") 50 7 false true ⟨["dir", "x.txt"]⟩ (by decide) _ rfl
  exact hm.1 rfl

/-- C5 counterexample.  The handler wired to the config route
(`config::client::get_config` via handler/mod.rs and main.rs) answers an
unregistered client with a 404-style "Client not registered" error, leaving
the store untouched - it neither inserts a default config nor returns 200. -/
theorem config_route_unregistered_counterexample :
    config_route_handler [] (some "c1") = (.notFoundNotRegistered, []) ∧
      (ConfigResponse.notFoundNotRegistered ≠
        .okJson WatchConfigDto.defaultConfig) := by
  decide

/-- C5 amended.  For an unregistered client the wired config handler returns
the "Client not registered" error and inserts nothing, while the unwired
`config::sys::get_config` implements the claimed behavior: it upserts the
default config (min poll interval 5000, empty watch groups) under
`(client_id, host_name)` and returns it. -/
theorem config_route_unregistered (db : ConfigDb) (cid host : String)
    (hnone : get_client_config db cid = none) :
    config_route_handler db (some cid) = (.notFoundNotRegistered, db)
    ∧ sys_get_config db (some cid) (some host) =
        (.okJson WatchConfigDto.defaultConfig,
          upsert_client_config db cid host WatchConfigDto.defaultConfig)
    ∧ WatchConfigDto.defaultConfig =
        { min_poll_interval_in_ms := 5000, watch_groups := [] } := by
  unfold config_route_handler client_get_config sys_get_config
  simp [hnone, WatchConfigDto.defaultConfig]

/-- Witness for C5 (amended) at a concrete empty store. -/
theorem config_route_unregistered_witness :
    config_route_handler [] (some "c1") = (.notFoundNotRegistered, [])
    ∧ sys_get_config [] (some "c1") (some "h1") =
        (.okJson WatchConfigDto.defaultConfig,
          [("c1", "h1", WatchConfigDto.defaultConfig)]) := by
  have hm := config_route_unregistered [] "c1" "h1" (by decide)
  exact ⟨hm.1, by rw [hm.2.1]; decide⟩

theorem fromVecString_segs_good (l : List String) :
    ∀ seg ∈ (MatchablePath.fromVecString l).segs,
      strIsEmpty seg = false ∧ firstCharPunct seg = false := by
  intro seg hmem
  unfold MatchablePath.fromVecString at hmem
  have hp := List.of_mem_filter hmem
  rw [Bool.and_eq_true] at hp
  exact ⟨by simpa using hp.1, by simpa using hp.2⟩

/-- C6 counterexample.  Construction from the OS path `~/foo` keeps the
segment `~` (it is a Normal component and the OS-path route neither trims
nor filters punctuation), and construction from an OS path does not trim
whitespace either - both contradicting the claim. -/
theorem fromOsPath_keeps_tilde_counterexample :
    MatchablePath.fromOsPath "~/foo" = some ⟨["~", "foo"]⟩
    ∧ ("~" ∈ (["~", "foo"] : List String))
    ∧ MatchablePath.fromOsPath "a/ b " = some ⟨["a", " b "]⟩ := by
  decide

/-- C6 amended.  Construction from a slash-delimited string parses exactly
as the OS-path route (it delegates to it), and that route keeps exactly the
Normal components without trimming or punctuation filtering (so `..` and `.`
are dropped as non-Normal components but `~` survives); only the
`Vec<String>` route trims and filters, and its result never contains an
empty, `.`, `..`, `~`, or punctuation-initial segment. -/
theorem matchable_path_construction (l : List String) (s : String) :
    MatchablePath.fromString s = MatchablePath.fromOsPath s
    ∧ MatchablePath.fromOsPath s = MatchablePath.new (normalComponents s)
    ∧ ∀ seg ∈ (MatchablePath.fromVecString l).segs,
        seg ≠ "" ∧ seg ≠ "." ∧ seg ≠ ".." ∧ seg ≠ "~" ∧
          firstCharPunct seg = false := by
  refine ⟨rfl, rfl, ?_⟩
  intro seg hmem
  have ⟨h1, h2⟩ := fromVecString_segs_good l seg hmem
  refine ⟨?_, ?_, ?_, ?_, h2⟩
  · intro hc; subst hc; exact absurd h1 (by decide)
  · intro hc; subst hc; exact absurd h2 (by decide)
  · intro hc; subst hc; exact absurd h2 (by decide)
  · intro hc; subst hc; exact absurd h2 (by decide)

/-- Witness for C6 (amended) at concrete inputs. -/
theorem matchable_path_construction_witness :
    MatchablePath.fromString "x/y" = MatchablePath.fromOsPath "x/y"
    ∧ ("a" ≠ "" ∧ "a" ≠ "." ∧ "a" ≠ ".." ∧ "a" ≠ "~" ∧
        firstCharPunct "a" = false) :=
  ⟨(matchable_path_construction ["a", "..", " "] "x/y").1,
    (matchable_path_construction ["a", "..", " "] "x/y").2.2 "a" (by decide)⟩

/-- C7.  On an input all of whose components strip away, the code does not
return an `InvalidPath` error value: `MatchablePath::new` panics first
(inside `From<&Path>`, also reached by the deserializer before its own empty
check, which is therefore dead code), and the `From<Vec<String>>` route
silently builds an empty path. -/
theorem empty_after_strip_panics :
    MatchablePath.deserialize ".." = .panicked
    ∧ MatchablePath.fromString ".." = none
    ∧ MatchablePath.fromOsPath "/" = none
    ∧ (MatchablePath.fromVecString ["..", "."]).segs = []
    ∧ MatchablePath.deserialize ".." ≠ .invalidPathError := by
  decide

/-- C9 counterexample.  Interleaving two uploads to the same path as
check(t=1), check(t=2), insert(t=2), insert(t=1): both pass the admission
check (the lower-timestamped upload is not rejected) and the per-path vector
ends as `[t=2, t=1]` - a later-timestamped event appended before an earlier
one, which the claim says no interleaving can produce. -/
theorem upload_race_counterexample :
    getEventsD (runSched [] (initTask c9E1) (initTask c9E2)
        [true, false, false, true]).1 1 c9Path = [c9E2, c9E1]
    ∧ (runSched [] (initTask c9E1) (initTask c9E2)
        [true, false, false, true]).2.1.admitted = true
    ∧ (runSched [] (initTask c9E1) (initTask c9E2)
        [true, false, false, true]).2.1.inserted = true
    ∧ c9E1.utc_millis < c9E2.utc_millis := by
  decide

/-- C9 amended.  The admission read and the History insertion are separate
critical sections (the store mutex is released inside `get_latest_event` and
re-acquired in `add`, with the rename and an awaited DB insert in between),
so same-path uploads are not serialized: there is an interleaving of two
uploads in which the lower-timestamped one is admitted and its event is
appended after the higher-timestamped one, leaving the per-path vector
unsorted. -/
theorem upload_race_exists :
    ∃ (e1 e2 : FileEvent) (sched : List Bool),
      e1.utc_millis < e2.utc_millis ∧ e1.key = e2.key ∧
      (runSched [] (initTask e1) (initTask e2) sched).2.1.admitted = true ∧
      (runSched [] (initTask e1) (initTask e2) sched).2.1.inserted = true ∧
      getEventsD (runSched [] (initTask e1) (initTask e2) sched).1
          e1.watch_group_id e1.relative_path = [e2, e1] := by
  exact ⟨c9E1, c9E2, [true, false, false, true], by decide, by decide,
    by decide, by decide, by decide⟩

theorem resolvePath_all_normal (segs : List String)
    (h : ∀ s ∈ segs, s ≠ ".." ∧ s ≠ "." ∧ s ≠ "") :
    ∀ root : List String, resolvePath root segs = root ++ segs := by
  induction segs with
  | nil => intro root; simp [resolvePath]
  | cons a t ih =>
    intro root
    have ⟨h1, h2, h3⟩ := h a (List.mem_cons_self a t)
    have hstep : resolveStep root a = root ++ [a] := by
      unfold resolveStep
      rw [if_neg h1, if_neg (by simp [h2, h3])]
    have : resolvePath root (a :: t) = resolvePath (resolveStep root a) t := rfl
    rw [this, hstep, ih (fun s hs => h s (List.mem_cons_of_mem a hs))]
    simp

/-- C10.  The download handler opens `upload/{wg_id}` extended by exactly
those slash-separated payload segments that are non-empty after trimming and
do not start with ASCII punctuation; since every kept segment is a plain
name (not `..`, `.`, `~` or empty), resolving them never pops above the
watch group's upload root: the resolved path is literally the root followed
by the kept segments. -/
theorem download_path_confined (wg : Int) (payload : String) :
    downloadSegs payload =
      ((splitSlash payload).map (fun item => strTrim item)).filter
        (fun s => !(strIsEmpty s) && !(firstCharPunct s))
    ∧ downloadPath wg payload = uploadRoot wg ++ downloadSegs payload
    ∧ resolvePath (uploadRoot wg) (downloadSegs payload) =
        uploadRoot wg ++ downloadSegs payload := by
  refine ⟨rfl, rfl, ?_⟩
  apply resolvePath_all_normal
  intro s hs
  have ⟨h1, h2⟩ := fromVecString_segs_good (splitSlash payload) s hs
  refine ⟨?_, ?_, ?_⟩
  · intro hc; subst hc; exact absurd h2 (by decide)
  · intro hc; subst hc; exact absurd h2 (by decide)
  · intro hc; subst hc; exact absurd h1 (by decide)

theorem leadsWith_nil (l : List Char) : leadsWith l [] = true := by
  cases l <;> rfl

theorem leadsWith_append (pat a b : List Char) (h : leadsWith a pat = true) :
    leadsWith (a ++ b) pat = true := by
  induction pat generalizing a with
  | nil => exact leadsWith_nil (a ++ b)
  | cons p ps ih =>
    cases a with
    | nil => rw [leadsWith] at h; exact Bool.noConfusion h
    | cons x t =>
      rw [List.cons_append]
      rw [leadsWith, Bool.and_eq_true] at h ⊢
      exact ⟨h.1, ih t h.2⟩

theorem containsSub_nil_pat (b : List Char) : containsSub b [] = true := by
  induction b with
  | nil => rfl
  | cons x t ih => rw [containsSub, leadsWith]; rfl

theorem containsSub_append (a b pat : List Char) (h : containsSub a pat = true) :
    containsSub (a ++ b) pat = true := by
  induction a with
  | nil =>
    rw [containsSub] at h
    have : pat = [] := by simpa using h
    subst this
    exact containsSub_nil_pat b
  | cons x t ih =>
    rw [containsSub, Bool.or_eq_true] at h
    rw [List.cons_append, containsSub, Bool.or_eq_true]
    rcases h with h | h
    · left
      rw [← List.cons_append]
      exact leadsWith_append pat (x :: t) b h
    · right
      exact ih h

theorem strContains_append (s s2 pat : String) (h : strContains s pat = true) :
    strContains (s ++ s2) pat = true := by
  unfold strContains at *
  rw [String.data_append]
  exact containsSub_append s.data s2.data pat.data h

theorem filesWithMeta_path_extends (cur : String) (rel : List String)
    (es : FsEntries) :
    ∀ t ∈ filesWithMeta cur rel es, ∃ suffix : String, t.2.1 = cur ++ suffix := by
  induction es generalizing cur rel with
  | done =>
    intro t ht
    rw [filesWithMeta] at ht
    cases ht
  | file n size mtime rest ih =>
    intro t ht
    rw [filesWithMeta] at ht
    rcases List.mem_cons.mp ht with rfl | hmem
    · exact ⟨"/" ++ n, by rw [String.append_assoc]⟩
    · exact ih cur rel t hmem
  | dir n children rest ih1 ih2 =>
    intro t ht
    rw [filesWithMeta] at ht
    rcases List.mem_append.mp ht with hmem | hmem
    · rcases List.mem_map.mp hmem with ⟨t0, ht0, rfl⟩
      rcases ih1 (cur ++ "/" ++ n) (rel ++ [n]) t0 ht0 with ⟨suf, hsuf⟩
      refine ⟨"/" ++ n ++ suf, ?_⟩
      show t0.2.1 = cur ++ ("/" ++ n ++ suf)
      rw [hsuf, ← String.append_assoc, ← String.append_assoc]
    · exact ih2 cur rel t hmem

/-- General characterization of the scan as a filter over all files of the
tree (used by the C8 claim theorem). -/
theorem scanList_eq_filter (cur : String) (rel : List String)
    (excl : List String) (exDot : Bool) (es : FsEntries) :
    scanList cur rel excl exDot es =
      ((filesWithMeta cur rel es).filter
          (fun t => !(skipFile excl exDot t))).map (fun t => t.1) := by
  induction es generalizing cur rel with
  | done =>
    rw [scanList, filesWithMeta]
    rfl
  | file n size mtime rest ih =>
    rw [scanList, filesWithMeta]
    by_cases h1 : (exDot && startsWithChar n '.') = true
    · rw [if_pos h1, List.filter_cons_of_neg (by simp [skipFile, h1]), ih cur rel]
    · rw [if_neg h1]
      by_cases h2 : (excl.any (fun x => strContains (cur ++ "/" ++ n) x)) = true
      · rw [if_pos h2, List.filter_cons_of_neg (by simp [skipFile, h2]), ih cur rel]
      · rw [if_neg h2]
        by_cases h3 : (strLower n == ".ds_store") = true
        · rw [if_pos h3, List.filter_cons_of_neg (by simp [skipFile, h3]), ih cur rel]
        · have h1' : (exDot && startsWithChar n '.') = false := by simpa using h1
          have h2' : (excl.any (fun x => strContains (cur ++ "/" ++ n) x)) = false := by
            simpa using h2
          have h3' : (strLower n == ".ds_store") = false := by simpa using h3
          rw [if_neg h3,
            List.filter_cons_of_pos (by simp [skipFile, h1', h2', h3']),
            List.map_cons, ih cur rel]
  | dir n children rest ih1 ih2 =>
    rw [scanList, filesWithMeta]
    by_cases h1 : (exDot && startsWithChar n '.') = true
    · rw [if_pos h1, List.filter_append,
        List.filter_eq_nil_iff.mpr (by
          intro t ht
          rcases List.mem_map.mp ht with ⟨t0, _, rfl⟩
          rw [Bool.and_eq_true] at h1
          simp [skipFile, h1.1, h1.2]),
        List.nil_append, ih2 cur rel]
    · rw [if_neg h1]
      by_cases h2 : (excl.any (fun x => strContains (cur ++ "/" ++ n) x)) = true
      · rw [if_pos h2, List.filter_append,
          List.filter_eq_nil_iff.mpr (by
            intro t ht
            rcases List.mem_map.mp ht with ⟨t0, ht0, rfl⟩
            rcases filesWithMeta_path_extends (cur ++ "/" ++ n) (rel ++ [n])
              children t0 ht0 with ⟨suf, hsuf⟩
            rcases List.any_eq_true.mp h2 with ⟨x, hx, hcont⟩
            have hc : strContains t0.2.1 x = true := by
              rw [hsuf]
              exact strContains_append _ _ _ hcont
            have hskip : skipFile excl exDot
                (t0.1, t0.2.1, t0.2.2 || startsWithChar n '.') = true := by
              have hany : (excl.any fun xx => strContains t0.2.1 xx) = true :=
                List.any_eq_true.mpr ⟨x, hx, hc⟩
              unfold skipFile
              simp [hany]
            simp [hskip]),
          List.nil_append, ih2 cur rel]
      · rw [if_neg h2, List.filter_append, List.map_append,
          ih1 (cur ++ "/" ++ n) (rel ++ [n]), ih2 cur rel]
        congr 1
        rw [List.filter_map, List.map_map]
        have hfst : ((fun t : FileDescription × String × Bool => t.1) ∘
            (fun t : FileDescription × String × Bool =>
              (t.1, t.2.1, t.2.2 || startsWithChar n '.'))) =
            fun t : FileDescription × String × Bool => t.1 := funext fun t => rfl
        rw [hfst]
        congr 1
        apply List.filter_congr
        intro t _
        cases hdot : exDot with
        | false => simp [skipFile, Function.comp]
        | true =>
          have hn : startsWithChar n '.' = false := by
            rw [hdot] at h1
            simpa using h1
          simp [skipFile, Function.comp, hn]

/-- C8 counterexample.  With `exclude_dot_dirs = true`, a dot-named FILE at
the root (not a directory subtree, not `.ds_store`, no exclusion substring)
is skipped by the scan, although the claim says only dot-named directory
subtrees are skipped and every other file is returned. -/
theorem scan_dot_file_counterexample :
    get_all_file_descriptions "root" [] true
        (.file ".hidden" 1 2 (.file "a.txt" 3 4 .done)) =
      [{ file_name := "a.txt", relative_path := ⟨["a.txt"]⟩, size_in_bytes := 3
         file_type := "txt", last_updated_utc_millis := 4 }] := by
  decide

/-- C8 amended.  The scan skips exactly: entries (files and directories
alike) whose name starts with `.` when `exclude_dot_dirs` is set - for a
directory the whole subtree - entries whose full path contains an
`exclude_dirs` element as a substring, and files named `.ds_store`
case-insensitively; every other file is returned.  In particular the worked
example with `exclude_dot_dirs = true` and `exclude_dirs = ["node_modules"]`
yields exactly keep.txt and src/main.rs. -/
theorem scan_skip_rules :
    (∀ (cur : String) (rel : List String) (excl : List String) (exDot : Bool)
        (es : FsEntries),
      scanList cur rel excl exDot es =
        ((filesWithMeta cur rel es).filter
            (fun t => !(skipFile excl exDot t))).map (fun t => t.1))
    ∧ get_all_file_descriptions "root" ["node_modules"] true
        (.file "keep.txt" 1 1
          (.dir ".obsidian" (.file "x" 1 1 .done)
            (.dir "node_modules" (.file "y" 1 1 .done)
              (.dir "src" (.file "main.rs" 2 2 .done) .done)))) =
      [{ file_name := "keep.txt", relative_path := ⟨["keep.txt"]⟩
         size_in_bytes := 1, file_type := "txt", last_updated_utc_millis := 1 },
       { file_name := "main.rs", relative_path := ⟨["src", "main.rs"]⟩
         size_in_bytes := 2, file_type := "rs", last_updated_utc_millis := 2 }] :=
  ⟨scanList_eq_filter, by decide⟩

end RustFileSync
